import Mathlib

/-!
# METCAP `EQ` derivative kernel (src/eq0.c)

A shallow embedding of the C routine

    void EQ(int *L, int *N, double *oldeq, double *transit,
            int *transitionsiu1, int *transitionsiu2,
            int *transitionsiv1, int *transitionsiv2, double *eq)

Memory is a pair of stores, one for `double` arrays and one for `int` arrays;
a pointer is the position of an array in the store of its element type, so
two `double*` arguments may name the same array (in-place use).  Every array
access is bounds checked and yields `none` when the index is outside the
array.  The element type of the `double` store is a parameter `α` carrying
`+`, `*` and the conversion from `int`; theorems that do not depend on
algebraic laws are proved for every such `α`, the "exact arithmetic" ones for
every commutative ring (in particular `ℚ` and `ℝ`).
-/

namespace METCAP

/-! ## Memory -/

/-- Memory seen by `EQ`: the store of `double` arrays and the store of `int` arrays. -/
structure Mem (α : Type) where
  dbls : List (List α)
  ints : List (List Int)
deriving DecidableEq, Repr

variable {α : Type}

/-- The `double` array a pointer names (no such array: the empty one). -/
def Mem.dbl (m : Mem α) (p : Nat) : List α := m.dbls.getD p []

/-- The `int` array a pointer names (no such array: the empty one). -/
def Mem.int (m : Mem α) (p : Nat) : List Int := m.ints.getD p []

/-- Read `p[i]` in the `double` store (C index of type `int`). -/
def Mem.loadD (m : Mem α) (p : Nat) (i : Int) : Option α :=
  if 0 ≤ i then (m.dbl p)[i.toNat]? else none

/-- Read `p[i]` in the `int` store. -/
def Mem.loadI (m : Mem α) (p : Nat) (i : Int) : Option Int :=
  if 0 ≤ i then (m.int p)[i.toNat]? else none

/-- Memory with the `double` array `p` replaced by `x`. -/
def Mem.setDbl (m : Mem α) (p : Nat) (x : List α) : Mem α :=
  { dbls := m.dbls.set p x, ints := m.ints }

/-- Write `p[i] = v` in the `double` store. -/
def Mem.storeD (m : Mem α) (p : Nat) (i : Int) (v : α) : Option (Mem α) :=
  if 0 ≤ i ∧ i.toNat < (m.dbl p).length then
    some (m.setDbl p ((m.dbl p).set i.toNat v))
  else none

/-! ## The routine -/

/-- The nine pointer arguments of `EQ`, with the names of the C signature. -/
structure Args where
  L : Nat
  N : Nat
  oldeq : Nat
  transit : Nat
  transitionsiu1 : Nat
  transitionsiu2 : Nat
  transitionsiv1 : Nat
  transitionsiv2 : Nat
  eq : Nat
deriving DecidableEq, Repr

/-- Body of the first loop: `eq[i]=oldeq[i];`. -/
def copyBody (a : Args) (i : Nat) (m : Mem α) : Option (Mem α) :=
  (m.loadD a.oldeq i).bind fun v => m.storeD a.eq i v

/-- First loop, `for(i=0;i<*N;i++)`: `k` iterations remain, the counter is `i`. -/
def copyLoop (a : Args) : Nat → Nat → Mem α → Option (Mem α)
  | 0, _, m => some m
  | k + 1, i, m => (copyBody a i m).bind fun m1 => copyLoop a k (i + 1) m1

/-- Body of the second loop, statement by statement:
    `iu1 = transitionsiu1[i]-1; iv1 = transitionsiv1[i];`
    `iu2 = transitionsiu2[i]-1; iv2 = transitionsiv2[i];`
    `eq[iu1] = eq[iu1] + transit[i]*iv1;`
    `eq[iu2] = eq[iu2] + transit[i]*iv2;` -/
def transBody [Add α] [Mul α] [IntCast α] (a : Args) (i : Nat) (m : Mem α) :
    Option (Mem α) :=
  (m.loadI a.transitionsiu1 i).bind fun u1 =>
  (m.loadI a.transitionsiv1 i).bind fun iv1 =>
  (m.loadI a.transitionsiu2 i).bind fun u2 =>
  (m.loadI a.transitionsiv2 i).bind fun iv2 =>
  let iu1 := u1 - 1
  let iu2 := u2 - 1
  (m.loadD a.eq iu1).bind fun e1 =>
  (m.loadD a.transit i).bind fun t1 =>
  (m.storeD a.eq iu1 (e1 + t1 * (iv1 : α))).bind fun m1 =>
  (m1.loadD a.eq iu2).bind fun e2 =>
  (m1.loadD a.transit i).bind fun t2 =>
  m1.storeD a.eq iu2 (e2 + t2 * (iv2 : α))

/-- Second loop, `for(i=0;i < *L;i++)`: `k` iterations remain, the counter is `i`. -/
def transLoop [Add α] [Mul α] [IntCast α] (a : Args) : Nat → Nat → Mem α → Option (Mem α)
  | 0, _, m => some m
  | k + 1, i, m => (transBody a i m).bind fun m1 => transLoop a k (i + 1) m1

/-- The routine `EQ`.  The loop bounds `*N` and `*L` live in the `int` store,
    which the routine never writes, so each counted loop runs `max 0 bound`
    times. -/
def EQ [Add α] [Mul α] [IntCast α] (a : Args) (m : Mem α) : Option (Mem α) :=
  (m.loadI a.N 0).bind fun n =>
  (copyLoop a n.toNat 0 m).bind fun m1 =>
  (m1.loadI a.L 0).bind fun l =>
  transLoop a l.toNat 0 m1

/-! ## Transition table and the reference algorithm of the specification -/

/-- One row of the transition table. -/
structure Transition (α : Type) where
  targetA : Int
  targetB : Int
  weight : α
  multiplierA : Int
  multiplierB : Int
deriving DecidableEq, Repr

/-- The table held by five parallel arrays. -/
def mkTable : List α → List Int → List Int → List Int → List Int → List (Transition α)
  | w :: ws, u1 :: u1s, u2 :: u2s, v1 :: v1s, v2 :: v2s =>
      { targetA := u1, targetB := u2, weight := w, multiplierA := v1, multiplierB := v2 } ::
        mkTable ws u1s u2s v1s v2s
  | _, _, _, _, _ => []

/-- The transition table a call of `EQ` reads. -/
def tableOf (a : Args) (m : Mem α) : List (Transition α) :=
  mkTable (m.dbl a.transit) (m.int a.transitionsiu1) (m.int a.transitionsiu2)
    (m.int a.transitionsiv1) (m.int a.transitionsiv2)

/-- Replace slot `k` by its current value plus `d` (no slot, no change). -/
def addAt [Add α] : List α → Nat → α → List α
  | [], _, _ => []
  | x :: xs, 0, d => (x + d) :: xs
  | x :: xs, k + 1, d => x :: addAt xs k d

/-- Specification §4.1 step 2: resolve `a = targetA - 1`, `b = targetB - 1`, then
    `output[a] += weight * multiplierA` and `output[b] += weight * multiplierB`. -/
def specStep [Add α] [Mul α] [IntCast α] (out : List α) (t : Transition α) : List α :=
  addAt (addAt out (t.targetA - 1).toNat (t.weight * (t.multiplierA : α)))
    (t.targetB - 1).toNat (t.weight * (t.multiplierB : α))

/-- Specification §4.1: start from a copy of the baseline and fold the
    transitions in table order. -/
def specApply [Add α] [Mul α] [IntCast α] (baseline : List α) (T : List (Transition α)) :
    List α :=
  T.foldl specStep baseline

/-! ## Well-formed calls -/

/-- Resolved indices of a transition lie in `[0, n)`. -/
def Transition.InRange (n : Nat) (t : Transition α) : Prop :=
  (0 ≤ t.targetA - 1 ∧ t.targetA - 1 < n) ∧ (0 ≤ t.targetB - 1 ∧ t.targetB - 1 < n)

instance (n : Nat) (t : Transition α) : Decidable (t.InRange n) := by
  unfold Transition.InRange; infer_instance

/-- Array shapes of a call: `*N = n`, `*L = l`, baseline and output of length
    `n`, the five transition arrays of length `l`. -/
structure Shaped (a : Args) (m : Mem α) (n l : Nat) : Prop where
  hN : m.loadI a.N 0 = some (n : Int)
  hL : m.loadI a.L 0 = some (l : Int)
  oldeq_len : (m.dbl a.oldeq).length = n
  eq_len : (m.dbl a.eq).length = n
  transit_len : (m.dbl a.transit).length = l
  iu1_len : (m.int a.transitionsiu1).length = l
  iu2_len : (m.int a.transitionsiu2).length = l
  iv1_len : (m.int a.transitionsiv1).length = l
  iv2_len : (m.int a.transitionsiv2).length = l

/-- An in-range input: shaped arrays, an output array that is not the weight
    array (the output is a separate vector or the baseline itself), and every
    resolved target index inside `[0, n)`. -/
structure InRange (a : Args) (m : Mem α) (n l : Nat) : Prop where
  shaped : Shaped a m n l
  sep : a.eq ≠ a.transit
  idx : ∀ t ∈ tableOf a m, t.InRange n

/-- Transition `i` resolves both of its targets inside `[0, n)`. -/
def idxOk (a : Args) (m : Mem α) (n i : Nat) : Prop :=
  (0 ≤ (m.int a.transitionsiu1).getD i 0 - 1 ∧ (m.int a.transitionsiu1).getD i 0 - 1 < n) ∧
  (0 ≤ (m.int a.transitionsiu2).getD i 0 - 1 ∧ (m.int a.transitionsiu2).getD i 0 - 1 < n)

instance (a : Args) (m : Mem α) (n i : Nat) : Decidable (idxOk a m n i) := by
  unfold idxOk; infer_instance

/-- Two memories with the same `int` store and `double` arrays of the same lengths. -/
def SameShape (m1 m : Mem α) : Prop :=
  m1.ints = m.ints ∧ ∀ q, (m1.dbl q).length = (m.dbl q).length

/-! ## Closed form of the increments -/

/-- Sum of `weight * multiplierA` over the transitions whose resolved `a` is `k`. -/
def contribA [Zero α] [Add α] [Mul α] [IntCast α] (T : List (Transition α)) (k : Nat) : α :=
  ((T.filter fun t => decide (t.targetA - 1 = (k : Int))).map
    fun t => t.weight * (t.multiplierA : α)).sum

/-- Sum of `weight * multiplierB` over the transitions whose resolved `b` is `k`. -/
def contribB [Zero α] [Add α] [Mul α] [IntCast α] (T : List (Transition α)) (k : Nat) : α :=
  ((T.filter fun t => decide (t.targetB - 1 = (k : Int))).map
    fun t => t.weight * (t.multiplierB : α)).sum

/-- Sum over the table of `weight * (multiplierA + multiplierB)`. -/
def massAdded [Zero α] [Add α] [Mul α] [IntCast α] (T : List (Transition α)) : α :=
  (T.map fun t => t.weight * ((t.multiplierA + t.multiplierB : Int) : α)).sum

/-- Slot-by-slot sum of two vectors. -/
def vecAdd [Add α] (x y : List α) : List α := List.zipWith (fun u v => u + v) x y

/-- Slot-by-slot difference of two vectors. -/
def vecSub [Sub α] (x y : List α) : List α := List.zipWith (fun u v => u - v) x y

/-! ## Concrete calls

Pointer layout of the examples: `L`, `N`, `transitionsiu1`, `transitionsiu2`,
`transitionsiv1`, `transitionsiv2` are the `int` arrays 0 to 5; `oldeq`,
`transit`, `eq` are the `double` arrays 0, 1, 2. -/

/-- Arguments of the example calls with a separate output array. -/
def exArgs : Args :=
  { L := 0, N := 1, transitionsiu1 := 2, transitionsiu2 := 3, transitionsiv1 := 4,
    transitionsiv2 := 5, oldeq := 0, transit := 1, eq := 2 }

/-- Scenario 2 of the specification: `N=3`, baseline `[0,0,0]`, one transition
    `(targetA=1, targetB=2, weight=5, multiplierA=1, multiplierB=-1)`. -/
def exMem2 : Mem ℚ :=
  { dbls := [[0, 0, 0], [5], [9, 9, 9]], ints := [[1], [3], [1], [2], [1], [-1]] }

/-- Scenario 3 of the specification: `N=2`, baseline `[1,1]`, two transitions
    `(targetA=1, targetB=2, weight=2, multiplierA=1, multiplierB=1)`. -/
def exMem3 : Mem ℤ :=
  { dbls := [[1, 1], [2, 2], [7, 7]], ints := [[2], [2], [1, 1], [2, 2], [1, 1], [1, 1]] }

/-- Scenario 1 of the specification: `N=3`, baseline `[1,2,3]`, `L=0`. -/
def exMem1 : Mem ℚ :=
  { dbls := [[1, 2, 3], [], [7, 8, 9]], ints := [[0], [3], [], [], [], []] }

/-- A call with an out-of-range target: `N=3`, one transition with `targetB=4`. -/
def exMemBad : Mem ℤ :=
  { dbls := [[0, 0, 0], [5], [9, 9, 9]], ints := [[1], [3], [1], [4], [1], [-1]] }

/-- A table of two transitions, `N=3`, baseline `[10, 20, 30]`. -/
def exMemPerm1 : Mem ℤ :=
  { dbls := [[10, 20, 30], [5, 7], [0, 0, 0]],
    ints := [[2], [3], [1, 2], [2, 3], [1, 2], [-1, 1]] }

/-- The same call with the two table rows exchanged. -/
def exMemPerm2 : Mem ℤ :=
  { dbls := [[10, 20, 30], [7, 5], [0, 0, 0]],
    ints := [[2], [3], [2, 1], [3, 2], [2, 1], [1, -1]] }

/-- Scenario 2 over the integers (`multiplierA = 1`). -/
def exMemMul1 : Mem ℤ :=
  { dbls := [[0, 0, 0], [5], [9, 9, 9]], ints := [[1], [3], [1], [2], [1], [-1]] }

/-- The same call with `multiplierA = 0`: only the array `transitionsiv1` differs. -/
def exMemMul0 : Mem ℤ :=
  { dbls := [[0, 0, 0], [5], [9, 9, 9]], ints := [[1], [3], [1], [2], [0], [-1]] }

/-- A call with two transitions, `N=3`, baseline `[10, 20, 30]` in array 0 and a
    separate output array 2 holding stale values. -/
def exMemInPlace : Mem ℤ :=
  { dbls := [[10, 20, 30], [5, 7], [-1, -2, -3]],
    ints := [[2], [3], [1, 2], [2, 2], [1, 2], [-1, 1]] }

/-- Arguments of a call that passes the weight array as the output array. -/
def exArgsWeights : Args :=
  { L := 0, N := 1, transitionsiu1 := 2, transitionsiu2 := 3, transitionsiv1 := 4,
    transitionsiv2 := 5, oldeq := 0, transit := 1, eq := 1 }

/-- Memory for `exArgsWeights`: `N = L = 1`, baseline `[3]`, weight `[5]`, one
    transition `(targetA=1, targetB=1, multiplierA=1, multiplierB=1)`. -/
def exMemWeights : Mem ℤ :=
  { dbls := [[3], [5]], ints := [[1], [1], [1], [1], [1], [1]] }

/-- The first row of the table of `exMemInPlace` alone, on the same baseline. -/
def exMemFirst : Mem ℤ :=
  { dbls := [[10, 20, 30], [5], [0, 0, 0]], ints := [[1], [3], [1], [2], [1], [-1]] }

/-- The second row of the table of `exMemInPlace` alone, on the baseline
    `[15, 15, 30]` that the call on `exMemFirst` produces. -/
def exMemSecond : Mem ℤ :=
  { dbls := [[15, 15, 30], [7], [0, 0, 0]], ints := [[1], [3], [2], [2], [2], [1]] }

/-- The call of `exMemInPlace` with its baseline shifted by `[1, 2, 3]`. -/
def exMemShift : Mem ℤ :=
  { dbls := [[11, 22, 33], [5, 7], [0, 0, 0]],
    ints := [[2], [3], [1, 2], [2, 2], [1, 2], [-1, 1]] }

/-! ## Store lemmas -/

theorem set_getElem_same : ∀ (l : List α) (i : Nat) (h : i < l.length), l.set i l[i] = l
  | _ :: _, 0, _ => rfl
  | x :: xs, i + 1, h => by
      have ih := set_getElem_same xs i (by simpa using h)
      simp [ih]

theorem Mem.lt_of_dbl_pos (m : Mem α) (p : Nat) (h : 0 < (m.dbl p).length) :
    p < m.dbls.length := by
  by_contra hp
  have : m.dbl p = [] := by
    unfold Mem.dbl
    rw [List.getD_eq_getElem?_getD, List.getElem?_eq_none (by omega)]
    rfl
  rw [this] at h
  simp at h

theorem Mem.setDbl_dbl_same (m : Mem α) (p : Nat) (x : List α) (h : p < m.dbls.length) :
    (m.setDbl p x).dbl p = x := by
  simp [Mem.setDbl, Mem.dbl, List.getD_eq_getElem?_getD, List.getElem?_set, h]

theorem Mem.setDbl_dbl_ne (m : Mem α) (p q : Nat) (x : List α) (h : q ≠ p) :
    (m.setDbl p x).dbl q = m.dbl q := by
  simp [Mem.setDbl, Mem.dbl, List.getD_eq_getElem?_getD, List.getElem?_set, Ne.symm h]

theorem Mem.setDbl_int (m : Mem α) (p q : Nat) (x : List α) :
    (m.setDbl p x).int q = m.int q := rfl

theorem Mem.setDbl_ints (m : Mem α) (p : Nat) (x : List α) :
    (m.setDbl p x).ints = m.ints := rfl

theorem Mem.setDbl_setDbl (m : Mem α) (p : Nat) (x y : List α) :
    (m.setDbl p x).setDbl p y = m.setDbl p y := by
  simp [Mem.setDbl]

theorem Mem.setDbl_self (m : Mem α) (p : Nat) : m.setDbl p (m.dbl p) = m := by
  cases m with
  | mk ds is =>
    simp only [Mem.setDbl, Mem.dbl, Mem.mk.injEq, and_true]
    by_cases hp : p < ds.length
    · rw [List.getD_eq_getElem?_getD, List.getElem?_eq_getElem hp]
      simpa using set_getElem_same ds p hp
    · exact List.set_eq_of_length_le (by omega)

theorem Mem.setDbl_loadI (m : Mem α) (p q : Nat) (x : List α) (i : Int) :
    (m.setDbl p x).loadI q i = m.loadI q i := rfl

theorem Mem.loadD_nat (m : Mem α) (p i : Nat) (h : i < (m.dbl p).length) :
    m.loadD p (i : Int) = some ((m.dbl p).get ⟨i, h⟩) := by
  simp [Mem.loadD, List.getElem?_eq_getElem h]

theorem Mem.loadI_nat (m : Mem α) (p i : Nat) (h : i < (m.int p).length) :
    m.loadI p (i : Int) = some ((m.int p).get ⟨i, h⟩) := by
  simp [Mem.loadI, List.getElem?_eq_getElem h]

theorem Mem.storeD_nat (m : Mem α) (p i : Nat) (v : α) (h : i < (m.dbl p).length) :
    m.storeD p (i : Int) v = some (m.setDbl p ((m.dbl p).set i v)) := by
  simp [Mem.storeD, h]

/-! ## The copy loop -/

theorem take_set_append_drop : ∀ (E O : List α) (i : Nat) (v : α), i < E.length →
    O[i]? = some v → (E.set i v).take (i + 1) ++ O.drop (i + 1) = E.take i ++ O.drop i
  | [], _, _, _, h, _ => by simp at h
  | _ :: _, [], _, _, _, h => by simp at h
  | e :: es, o :: os, 0, v, _, h => by
      simp at h
      simp [h]
  | e :: es, o :: os, i + 1, v, h, hv => by
      have ih := take_set_append_drop es os i v (by simpa using h) (by simpa using hv)
      simpa using ih

theorem copyBody_eq (a : Args) (i : Nat) (m : Mem α) (v : α)
    (hv : (m.dbl a.oldeq)[i]? = some v) (hi : i < (m.dbl a.eq).length) :
    copyBody a i m = some (m.setDbl a.eq ((m.dbl a.eq).set i v)) := by
  have ho : i < (m.dbl a.oldeq).length := by
    by_contra hc
    rw [List.getElem?_eq_none (by omega)] at hv
    cases hv
  rw [List.getElem?_eq_getElem ho] at hv
  simp only [copyBody, Mem.loadD_nat m a.oldeq i ho, Option.some_bind,
    Mem.storeD_nat m a.eq i _ hi]
  simp only [Option.some.injEq] at hv
  simp [List.get_eq_getElem, hv]

theorem copyLoop_eq (a : Args) (n : Nat) : ∀ (k i : Nat) (m : Mem α),
    (m.dbl a.oldeq).length = n → (m.dbl a.eq).length = n → i + k = n →
    copyLoop a k i m =
      some (m.setDbl a.eq ((m.dbl a.eq).take i ++ (m.dbl a.oldeq).drop i))
  | 0, i, m, ho, he, hik => by
      have h1 : (m.dbl a.eq).take i = m.dbl a.eq := List.take_of_length_le (by omega)
      have h2 : (m.dbl a.oldeq).drop i = [] := List.drop_of_length_le (by omega)
      simp [copyLoop, h1, h2, Mem.setDbl_self]
  | k + 1, i, m, ho, he, hik => by
      have hio : i < (m.dbl a.oldeq).length := by omega
      have hie : i < (m.dbl a.eq).length := by omega
      have hp : a.eq < m.dbls.length := m.lt_of_dbl_pos a.eq (by omega)
      have hv : (m.dbl a.oldeq)[i]? = some (m.dbl a.oldeq)[i] := List.getElem?_eq_getElem hio
      have hb := copyBody_eq a i m _ hv hie
      have heq1 : ((m.setDbl a.eq ((m.dbl a.eq).set i (m.dbl a.oldeq)[i])).dbl a.eq) =
          (m.dbl a.eq).set i (m.dbl a.oldeq)[i] := m.setDbl_dbl_same a.eq _ hp
      have hold1 : ((m.setDbl a.eq ((m.dbl a.eq).set i (m.dbl a.oldeq)[i])).dbl a.oldeq) =
          m.dbl a.oldeq := by
        by_cases hal : a.oldeq = a.eq
        · have hg : ∀ (q : Nat) (hq : i < (m.dbl q).length), q = a.eq →
              (m.setDbl a.eq ((m.dbl a.eq).set i (m.dbl q)[i])).dbl q = m.dbl q := by
            intro q hq hqe
            subst hqe
            rw [m.setDbl_dbl_same _ _ hp]
            exact set_getElem_same _ i hq
          exact hg a.oldeq hio hal
        · exact m.setDbl_dbl_ne a.eq a.oldeq _ hal
      have ih := copyLoop_eq a n k (i + 1)
        (m.setDbl a.eq ((m.dbl a.eq).set i (m.dbl a.oldeq)[i]))
        (by rw [hold1]; exact ho) (by rw [heq1]; simpa using he) (by omega)
      rw [copyLoop, hb, Option.some_bind, ih, heq1, hold1, Mem.setDbl_setDbl,
        take_set_append_drop _ _ i _ hie hv]

/-! ## The accumulation loop -/

theorem addAt_length [Add α] : ∀ (out : List α) (k : Nat) (d : α),
    (addAt out k d).length = out.length
  | [], _, _ => rfl
  | _ :: _, 0, _ => rfl
  | _ :: xs, k + 1, d => by simp [addAt, addAt_length xs k d]

theorem addAt_eq_set [Add α] : ∀ (out : List α) (k : Nat) (d : α) (h : k < out.length),
    addAt out k d = out.set k (out[k] + d)
  | _ :: _, 0, _, _ => rfl
  | _ :: xs, k + 1, d, h => by
      simp [addAt, addAt_eq_set xs k d (by simpa using h)]

theorem Mem.loadD_of_nonneg (m : Mem α) (p : Nat) (j : Int) (h : 0 ≤ j) :
    m.loadD p j = (m.dbl p)[j.toNat]? := by
  simp [Mem.loadD, h]

theorem Mem.loadD_natCast (m : Mem α) (p i : Nat) : m.loadD p (i : Int) = (m.dbl p)[i]? := by
  simp [Mem.loadD]

theorem Mem.loadI_natCast (m : Mem α) (p i : Nat) : m.loadI p (i : Int) = (m.int p)[i]? := by
  simp [Mem.loadI]

/-- The statement `p[j] = p[j] + d` on an in-bounds slot. -/
theorem Mem.storeD_addAt [Add α] (m : Mem α) (p : Nat) (j : Int) (d : α) (h0 : 0 ≤ j)
    (h : j.toNat < (m.dbl p).length) :
    m.storeD p j ((m.dbl p)[j.toNat] + d) = some (m.setDbl p (addAt (m.dbl p) j.toNat d)) := by
  simp [Mem.storeD, h0, h, addAt_eq_set _ _ _ h]

theorem transBody_eq [Add α] [Mul α] [IntCast α] (a : Args) (i : Nat) (m : Mem α)
    (t : Transition α) (sep : a.eq ≠ a.transit)
    (hu1 : (m.int a.transitionsiu1)[i]? = some t.targetA)
    (hu2 : (m.int a.transitionsiu2)[i]? = some t.targetB)
    (hv1 : (m.int a.transitionsiv1)[i]? = some t.multiplierA)
    (hv2 : (m.int a.transitionsiv2)[i]? = some t.multiplierB)
    (hw : (m.dbl a.transit)[i]? = some t.weight)
    (hr : t.InRange (m.dbl a.eq).length) :
    transBody a i m = some (m.setDbl a.eq (specStep (m.dbl a.eq) t)) := by
  obtain ⟨⟨ha0, ha1⟩, hb0, hb1⟩ := hr
  have ha : (t.targetA - 1).toNat < (m.dbl a.eq).length := by omega
  have hb : (t.targetB - 1).toNat < (m.dbl a.eq).length := by omega
  have hp : a.eq < m.dbls.length := m.lt_of_dbl_pos a.eq (by omega)
  have hb2 : (t.targetB - 1).toNat <
      (addAt (m.dbl a.eq) (t.targetA - 1).toNat (t.weight * (t.multiplierA : α))).length := by
    rw [addAt_length]; exact hb
  have h1 := m.storeD_addAt a.eq (t.targetA - 1) (t.weight * (t.multiplierA : α)) ha0 ha
  have e1 : (m.setDbl a.eq (addAt (m.dbl a.eq) (t.targetA - 1).toNat
      (t.weight * (t.multiplierA : α)))).dbl a.eq =
      addAt (m.dbl a.eq) (t.targetA - 1).toNat (t.weight * (t.multiplierA : α)) :=
    m.setDbl_dbl_same a.eq _ hp
  have e2 : (m.setDbl a.eq (addAt (m.dbl a.eq) (t.targetA - 1).toNat
      (t.weight * (t.multiplierA : α)))).dbl a.transit = m.dbl a.transit :=
    m.setDbl_dbl_ne a.eq a.transit _ (Ne.symm sep)
  have h2 := (m.setDbl a.eq (addAt (m.dbl a.eq) (t.targetA - 1).toNat
      (t.weight * (t.multiplierA : α)))).storeD_addAt a.eq (t.targetB - 1)
      (t.weight * (t.multiplierB : α)) hb0 (by rw [e1]; exact hb2)
  simp only [e1] at h2
  simp only [transBody, Mem.loadI_natCast, hu1, hu2, hv1, hv2, Option.some_bind,
    Mem.loadD_of_nonneg _ _ _ ha0, Mem.loadD_of_nonneg _ _ _ hb0, Mem.loadD_natCast, hw,
    List.getElem?_eq_getElem ha, h1, e1, e2, List.getElem?_eq_getElem hb2, h2,
    Mem.setDbl_setDbl, specStep]

theorem Mem.setDbl_dbl_same_of_length (m : Mem α) (p : Nat) (x : List α)
    (h : x.length = (m.dbl p).length) : (m.setDbl p x).dbl p = x := by
  by_cases hp : p < m.dbls.length
  · exact m.setDbl_dbl_same p x hp
  · have h0 : (m.dbl p).length = 0 := by
      by_contra hc
      exact hp (m.lt_of_dbl_pos p (by omega))
    have hx : x = [] := List.length_eq_zero.mp (by omega)
    have hm : m.dbl p = [] := List.length_eq_zero.mp h0
    rw [hx, ← hm, Mem.setDbl_self, hm]

theorem specStep_length [Add α] [Mul α] [IntCast α] (out : List α) (t : Transition α) :
    (specStep out t).length = out.length := by
  simp [specStep, addAt_length]

theorem specApply_length [Add α] [Mul α] [IntCast α] (T : List (Transition α)) :
    ∀ (out : List α), (specApply out T).length = out.length := by
  induction T with
  | nil => intro out; rfl
  | cons t T ih =>
    intro out
    simp only [specApply, List.foldl_cons] at ih ⊢
    rw [ih, specStep_length]

theorem mkTable_getElem? : ∀ (W : List α) (A B VA VB : List Int) (i : Nat) (t : Transition α),
    (mkTable W A B VA VB)[i]? = some t →
      A[i]? = some t.targetA ∧ B[i]? = some t.targetB ∧ W[i]? = some t.weight ∧
      VA[i]? = some t.multiplierA ∧ VB[i]? = some t.multiplierB := by
  intro W
  induction W with
  | nil => intro A B VA VB i t h; simp [mkTable] at h
  | cons w ws ih =>
    intro A B VA VB i t h
    cases A with
    | nil => simp [mkTable] at h
    | cons u1 u1s =>
    cases B with
    | nil => simp [mkTable] at h
    | cons u2 u2s =>
    cases VA with
    | nil => simp [mkTable] at h
    | cons v1 v1s =>
    cases VB with
    | nil => simp [mkTable] at h
    | cons v2 v2s =>
    cases i with
    | zero =>
      simp only [mkTable, List.getElem?_cons_zero, Option.some.injEq] at h
      subst h
      simp
    | succ i =>
      simp only [mkTable, List.getElem?_cons_succ] at h ⊢
      exact ih u1s u2s v1s v2s i t h

theorem mkTable_length : ∀ (W : List α) (A B VA VB : List Int) (l : Nat),
    W.length = l → A.length = l → B.length = l → VA.length = l → VB.length = l →
    (mkTable W A B VA VB).length = l := by
  intro W
  induction W with
  | nil => intro A B VA VB l h; simp [mkTable, ← h]
  | cons w ws ih =>
    intro A B VA VB l hW hA hB hVA hVB
    cases l with
    | zero => simp at hW
    | succ l =>
    cases A with
    | nil => simp at hA
    | cons u1 u1s =>
    cases B with
    | nil => simp at hB
    | cons u2 u2s =>
    cases VA with
    | nil => simp at hVA
    | cons v1 v1s =>
    cases VB with
    | nil => simp at hVB
    | cons v2 v2s =>
      simp only [List.length_cons, Nat.add_right_cancel_iff] at hW hA hB hVA hVB
      simp [mkTable, ih u1s u2s v1s v2s l hW hA hB hVA hVB]

theorem tableOf_setDbl (a : Args) (m : Mem α) (x : List α) (sep : a.eq ≠ a.transit) :
    tableOf a (m.setDbl a.eq x) = tableOf a m := by
  simp only [tableOf, Mem.setDbl_int, m.setDbl_dbl_ne a.eq a.transit x (Ne.symm sep)]

theorem transLoop_eq [Add α] [Mul α] [IntCast α] (a : Args) (sep : a.eq ≠ a.transit) :
    ∀ (k i : Nat) (m : Mem α), i + k = (tableOf a m).length →
    (∀ t ∈ tableOf a m, t.InRange (m.dbl a.eq).length) →
    transLoop a k i m =
      some (m.setDbl a.eq (specApply (m.dbl a.eq) ((tableOf a m).drop i)))
  | 0, i, m, hik, _ => by
      have h : (tableOf a m).drop i = [] := List.drop_of_length_le (by omega)
      simp [transLoop, h, specApply, Mem.setDbl_self]
  | k + 1, i, m, hik, hr => by
      have hi : i < (tableOf a m).length := by omega
      have ht : (tableOf a m)[i]? = some (tableOf a m)[i] := List.getElem?_eq_getElem hi
      obtain ⟨hu1, hu2, hw, hv1, hv2⟩ := mkTable_getElem? _ _ _ _ _ i _ ht
      have hb := transBody_eq a i m (tableOf a m)[i] sep hu1 hu2 hv1 hv2 hw
        (hr _ (List.getElem_mem hi))
      have hlen : (specStep (m.dbl a.eq) (tableOf a m)[i]).length = (m.dbl a.eq).length :=
        specStep_length _ _
      have e1 := m.setDbl_dbl_same_of_length a.eq _ hlen
      have eT := tableOf_setDbl a m (specStep (m.dbl a.eq) (tableOf a m)[i]) sep
      have ih := transLoop_eq a sep k (i + 1)
        (m.setDbl a.eq (specStep (m.dbl a.eq) (tableOf a m)[i]))
        (by rw [eT]; omega) (by rw [eT, e1, hlen]; exact hr)
      rw [transLoop, hb, Option.some_bind, ih, e1, eT, Mem.setDbl_setDbl,
        List.drop_eq_getElem_cons hi]
      rfl

theorem tableOf_length (a : Args) (m : Mem α) (n l : Nat) (h : Shaped a m n l) :
    (tableOf a m).length = l :=
  mkTable_length _ _ _ _ _ l h.transit_len h.iu1_len h.iu2_len h.iv1_len h.iv2_len

/-- Functional description of a call on an in-range input: the output array
    becomes the fold of the table over the baseline, nothing else changes. -/
theorem EQ_eq [Add α] [Mul α] [IntCast α] (a : Args) (m : Mem α) (n l : Nat)
    (h : InRange a m n l) :
    EQ a m = some (m.setDbl a.eq (specApply (m.dbl a.oldeq) (tableOf a m))) := by
  obtain ⟨hs, sep, hr⟩ := h
  have hc := copyLoop_eq a n n 0 m hs.oldeq_len hs.eq_len (by omega)
  simp only [List.take_zero, List.drop_zero, List.nil_append] at hc
  have e1 := m.setDbl_dbl_same_of_length a.eq (m.dbl a.oldeq)
    (by rw [hs.oldeq_len, hs.eq_len])
  have eT := tableOf_setDbl a m (m.dbl a.oldeq) sep
  have ht := transLoop_eq a sep l 0 (m.setDbl a.eq (m.dbl a.oldeq))
    (by rw [eT, tableOf_length a m n l hs]; omega)
    (by rw [eT, e1, hs.oldeq_len]; exact hr)
  simp only [List.drop_zero, e1, eT, Mem.setDbl_setDbl] at ht
  simp only [EQ, hs.hN, Option.some_bind, Int.toNat_ofNat, hc, Mem.setDbl_loadI, hs.hL, ht]

/-- On an in-range input the call returns, and the output array is the fold. -/
theorem EQ_out [Add α] [Mul α] [IntCast α] (a : Args) (m : Mem α) (n l : Nat)
    (h : InRange a m n l) :
    ∃ r, EQ a m = some r ∧ r.dbl a.eq = specApply (m.dbl a.oldeq) (tableOf a m) ∧
      r.ints = m.ints ∧ ∀ p, p ≠ a.eq → r.dbl p = m.dbl p := by
  refine ⟨_, EQ_eq a m n l h, ?_, rfl, fun p hp => m.setDbl_dbl_ne a.eq p _ hp⟩
  apply m.setDbl_dbl_same_of_length
  rw [specApply_length, h.shaped.oldeq_len, h.shaped.eq_len]

/-! ## Exact arithmetic: the closed form -/

theorem addAt_getD [CommRing α] : ∀ (out : List α) (j k : Nat) (d : α), k < out.length →
    (addAt out j d).getD k 0 = out.getD k 0 + if j = k then d else 0
  | [], _, _, _, h => by simp at h
  | _ :: _, 0, 0, _, _ => by simp [addAt]
  | _ :: _, 0, k + 1, _, _ => by simp [addAt]
  | _ :: _, j + 1, 0, _, _ => by simp [addAt]
  | _ :: xs, j + 1, k + 1, d, h => by
      have ih := addAt_getD xs j k d (by simpa using h)
      simpa [addAt] using ih

theorem contribA_cons [CommRing α] (t : Transition α) (T : List (Transition α)) (k : Nat) :
    contribA (t :: T) k =
      (if t.targetA - 1 = (k : Int) then t.weight * (t.multiplierA : α) else 0) +
        contribA T k := by
  unfold contribA
  by_cases h : t.targetA - 1 = (k : Int) <;> simp [List.filter_cons, h]

theorem contribB_cons [CommRing α] (t : Transition α) (T : List (Transition α)) (k : Nat) :
    contribB (t :: T) k =
      (if t.targetB - 1 = (k : Int) then t.weight * (t.multiplierB : α) else 0) +
        contribB T k := by
  unfold contribB
  by_cases h : t.targetB - 1 = (k : Int) <;> simp [List.filter_cons, h]

theorem specStep_getD [CommRing α] (out : List α) (t : Transition α) (k : Nat)
    (hk : k < out.length) (ht : t.InRange out.length) :
    (specStep out t).getD k 0 = out.getD k 0 +
      (if t.targetA - 1 = (k : Int) then t.weight * (t.multiplierA : α) else 0) +
      (if t.targetB - 1 = (k : Int) then t.weight * (t.multiplierB : α) else 0) := by
  obtain ⟨⟨ha0, _⟩, hb0, _⟩ := ht
  have ea : ((t.targetA - 1).toNat = k) = (t.targetA - 1 = (k : Int)) := by
    apply propext; omega
  have eb : ((t.targetB - 1).toNat = k) = (t.targetB - 1 = (k : Int)) := by
    apply propext; omega
  unfold specStep
  rw [addAt_getD _ _ _ _ (by rw [addAt_length]; exact hk), addAt_getD _ _ _ _ hk]
  simp only [ea, eb]

theorem specApply_getD [CommRing α] (T : List (Transition α)) : ∀ (out : List α) (k : Nat),
    k < out.length → (∀ t ∈ T, t.InRange out.length) →
    (specApply out T).getD k 0 = out.getD k 0 + contribA T k + contribB T k := by
  induction T with
  | nil => intro out k _ _; simp [specApply, contribA, contribB]
  | cons t T ih =>
    intro out k hk hr
    have h1 := ih (specStep out t) k (by rw [specStep_length]; exact hk)
      (by rw [specStep_length]; exact fun t ht => hr t (List.mem_cons_of_mem _ ht))
    have h2 := specStep_getD out t k hk (hr t (List.mem_cons_self _ _))
    simp only [specApply, List.foldl_cons] at h1 ⊢
    rw [h1, h2, contribA_cons, contribB_cons]
    ring

theorem exMem2_inRange : InRange exArgs exMem2 3 1 :=
  ⟨⟨by decide, by decide, by decide, by decide, by decide, by decide, by decide, by decide,
    by decide⟩, by decide, by decide⟩

theorem exMem3_inRange : InRange exArgs exMem3 2 2 :=
  ⟨⟨by decide, by decide, by decide, by decide, by decide, by decide, by decide, by decide,
    by decide⟩, by decide, by decide⟩

theorem exMem1_shaped : Shaped exArgs exMem1 3 0 :=
  ⟨by decide, by decide, by decide, by decide, by decide, by decide, by decide, by decide,
    by decide⟩

/-! ## Exact arithmetic: order of the table -/

theorem addAt_comm [CommRing α] : ∀ (out : List α) (i j : Nat) (d e : α),
    addAt (addAt out i d) j e = addAt (addAt out j e) i d
  | [], _, _, _, _ => rfl
  | _ :: _, 0, 0, _, _ => by simp [addAt, add_right_comm]
  | _ :: _, 0, _ + 1, _, _ => rfl
  | _ :: _, _ + 1, 0, _, _ => rfl
  | _ :: xs, i + 1, j + 1, d, e => by simp [addAt, addAt_comm xs i j d e]

theorem specStep_comm [CommRing α] (out : List α) (t1 t2 : Transition α) :
    specStep (specStep out t1) t2 = specStep (specStep out t2) t1 := by
  unfold specStep
  rw [addAt_comm (addAt out _ _) (t1.targetB - 1).toNat (t2.targetA - 1).toNat,
    addAt_comm out (t1.targetA - 1).toNat (t2.targetA - 1).toNat,
    addAt_comm (addAt (addAt out _ _) _ _) (t1.targetB - 1).toNat (t2.targetB - 1).toNat,
    addAt_comm (addAt out _ _) (t1.targetA - 1).toNat (t2.targetB - 1).toNat]

theorem specApply_perm [CommRing α] (out : List α) (T1 T2 : List (Transition α))
    (hp : T1.Perm T2) : specApply out T1 = specApply out T2 :=
  hp.foldl_eq' (fun x _ y _ z => specStep_comm z x y) out

/-! ## Slots no transition designates -/

theorem addAt_getElem?_ne [Add α] : ∀ (out : List α) (j k : Nat) (d : α), j ≠ k →
    (addAt out j d)[k]? = out[k]?
  | [], _, _, _, _ => rfl
  | _ :: _, 0, 0, _, h => absurd rfl h
  | _ :: _, 0, _ + 1, _, _ => by simp [addAt]
  | _ :: _, _ + 1, 0, _, _ => by simp [addAt]
  | _ :: xs, j + 1, k + 1, d, h => by
      simpa [addAt] using addAt_getElem?_ne xs j k d (fun e => h (by rw [e]))

theorem specApply_getElem?_of_free [Add α] [Mul α] [IntCast α] (k : Nat)
    (T : List (Transition α)) : ∀ (out : List α),
    (∀ t ∈ T, t.InRange out.length ∧ t.targetA - 1 ≠ (k : Int) ∧ t.targetB - 1 ≠ (k : Int)) →
    (specApply out T)[k]? = out[k]? := by
  induction T with
  | nil => intro out _; rfl
  | cons t T ih =>
    intro out hT
    obtain ⟨⟨⟨ha0, _⟩, hb0, _⟩, hak, hbk⟩ := hT t (List.mem_cons_self _ _)
    have h1 := ih (specStep out t) (by
      rw [specStep_length]
      exact fun t ht => hT t (List.mem_cons_of_mem _ ht))
    simp only [specApply, List.foldl_cons] at h1 ⊢
    rw [h1]
    unfold specStep
    rw [addAt_getElem?_ne _ _ _ _ (by omega), addAt_getElem?_ne _ _ _ _ (by omega)]

theorem getElem?_eq_getD (A : List Int) (i : Nat) (h : i < A.length) :
    A[i]? = some (A.getD i 0) := by
  rw [List.getD_eq_getElem?_getD, List.getElem?_eq_getElem h]
  rfl

theorem getD_of_getElem? (A : List Int) (i : Nat) (x : Int) (h : A[i]? = some x) :
    i < A.length ∧ A.getD i 0 = x := by
  have hi : i < A.length := by
    by_contra hc
    rw [List.getElem?_eq_none (by omega)] at h
    cases h
  refine ⟨hi, ?_⟩
  rw [getElem?_eq_getD A i hi] at h
  exact Option.some.inj h

/-- Every row of the table carries the targets found at one position of the
    two target arrays. -/
theorem mem_tableOf_targets (a : Args) (m : Mem α) (t : Transition α) (h : t ∈ tableOf a m) :
    ∃ i, i < (m.int a.transitionsiu1).length ∧
      (m.int a.transitionsiu1).getD i 0 = t.targetA ∧
      (m.int a.transitionsiu2).getD i 0 = t.targetB := by
  obtain ⟨i, hi⟩ := List.getElem?_of_mem h
  obtain ⟨h1, h2, -, -, -⟩ := mkTable_getElem? _ _ _ _ _ i t hi
  obtain ⟨hl, e1⟩ := getD_of_getElem? _ i _ h1
  obtain ⟨-, e2⟩ := getD_of_getElem? _ i _ h2
  exact ⟨i, hl, e1, e2⟩

/-! ## The output array before the call -/

/-- Replacing the contents of a separate output array keeps an input in range. -/
theorem InRange.setDbl_eq {a : Args} {m : Mem α} {n l : Nat} (h : InRange a m n l)
    (hne : a.eq ≠ a.oldeq) (x : List α) (hx : x.length = n) :
    InRange a (m.setDbl a.eq x) n l := by
  obtain ⟨hs, sep, hr⟩ := h
  have e1 : (m.setDbl a.eq x).dbl a.eq = x :=
    m.setDbl_dbl_same_of_length a.eq x (by rw [hx, hs.eq_len])
  have e2 : (m.setDbl a.eq x).dbl a.oldeq = m.dbl a.oldeq :=
    m.setDbl_dbl_ne a.eq a.oldeq x (Ne.symm hne)
  have e3 : (m.setDbl a.eq x).dbl a.transit = m.dbl a.transit :=
    m.setDbl_dbl_ne a.eq a.transit x (Ne.symm sep)
  refine ⟨⟨hs.hN, hs.hL, ?_, ?_, ?_, hs.iu1_len, hs.iu2_len, hs.iv1_len, hs.iv2_len⟩, sep, ?_⟩
  · rw [e2]; exact hs.oldeq_len
  · rw [e1]; exact hx
  · rw [e3]; exact hs.transit_len
  · rw [tableOf_setDbl a m x sep]; exact hr

/-- With a separate output array, the result does not depend on what the
    output array held before the call. -/
theorem EQ_setDbl_eq [Add α] [Mul α] [IntCast α] (a : Args) (m : Mem α) (n l : Nat)
    (h : InRange a m n l) (hne : a.eq ≠ a.oldeq) (x : List α) (hx : x.length = n) :
    EQ a (m.setDbl a.eq x) = EQ a m := by
  rw [EQ_eq a m n l h, EQ_eq a _ n l (h.setDbl_eq hne x hx), Mem.setDbl_setDbl,
    tableOf_setDbl a m x h.sep, m.setDbl_dbl_ne a.eq a.oldeq x (Ne.symm hne)]

/-! ## Failure of a call: bounds only -/

theorem Mem.setDbl_sameShape (m : Mem α) (p : Nat) (x : List α)
    (h : x.length = (m.dbl p).length) : SameShape (m.setDbl p x) m := by
  refine ⟨rfl, fun q => ?_⟩
  by_cases hq : q = p
  · subst hq
    rw [m.setDbl_dbl_same_of_length q x h, h]
  · rw [m.setDbl_dbl_ne p q x hq]

theorem Mem.storeD_some (m : Mem α) (p : Nat) (j : Int) (v : α) (h0 : 0 ≤ j)
    (h : j.toNat < (m.dbl p).length) : ∃ m1, m.storeD p j v = some m1 ∧ SameShape m1 m :=
  ⟨m.setDbl p ((m.dbl p).set j.toNat v), by simp [Mem.storeD, h0, h],
    m.setDbl_sameShape p _ (by simp)⟩

theorem Mem.loadD_some (m : Mem α) (p : Nat) (j : Int) (h0 : 0 ≤ j)
    (h : j.toNat < (m.dbl p).length) : ∃ v, m.loadD p j = some v :=
  ⟨_, by rw [m.loadD_of_nonneg p j h0, List.getElem?_eq_getElem h]⟩

theorem Mem.loadD_none (m : Mem α) (p : Nat) (j : Int)
    (h : ¬ (0 ≤ j ∧ j.toNat < (m.dbl p).length)) : m.loadD p j = none := by
  unfold Mem.loadD
  split
  · rename_i h0
    apply List.getElem?_eq_none
    have : ¬ j.toNat < (m.dbl p).length := fun hh => h ⟨h0, hh⟩
    omega
  · rfl

/-- One iteration of the accumulation loop returns exactly when both resolved
    indices are in bounds, and then it keeps the shape of memory. -/
theorem transBody_cases [Add α] [Mul α] [IntCast α] (a : Args) (i n : Nat) (m : Mem α)
    (he : (m.dbl a.eq).length = n) (hw : i < (m.dbl a.transit).length)
    (h1 : i < (m.int a.transitionsiu1).length) (h2 : i < (m.int a.transitionsiu2).length)
    (h3 : i < (m.int a.transitionsiv1).length) (h4 : i < (m.int a.transitionsiv2).length) :
    (idxOk a m n i → ∃ m1, transBody a i m = some m1 ∧ SameShape m1 m) ∧
    (¬ idxOk a m n i → transBody a i m = none) := by
  have hu1 := getElem?_eq_getD _ i h1
  have hu2 := getElem?_eq_getD _ i h2
  have hv1 := getElem?_eq_getD _ i h3
  have hv2 := getElem?_eq_getD _ i h4
  have hbody : transBody a i m =
      (m.loadD a.eq ((m.int a.transitionsiu1).getD i 0 - 1)).bind fun e1 =>
      (m.loadD a.transit i).bind fun t1 =>
      (m.storeD a.eq ((m.int a.transitionsiu1).getD i 0 - 1)
        (e1 + t1 * (((m.int a.transitionsiv1).getD i 0 : Int) : α))).bind fun m1 =>
      (m1.loadD a.eq ((m.int a.transitionsiu2).getD i 0 - 1)).bind fun e2 =>
      (m1.loadD a.transit i).bind fun t2 =>
      m1.storeD a.eq ((m.int a.transitionsiu2).getD i 0 - 1)
        (e2 + t2 * (((m.int a.transitionsiv2).getD i 0 : Int) : α)) := by
    simp only [transBody, Mem.loadI_natCast, hu1, hu2, hv1, hv2, Option.some_bind]
  rw [hbody]
  by_cases hA : 0 ≤ (m.int a.transitionsiu1).getD i 0 - 1 ∧
      ((m.int a.transitionsiu1).getD i 0 - 1).toNat < (m.dbl a.eq).length
  · obtain ⟨e1, he1⟩ := m.loadD_some a.eq _ hA.1 hA.2
    obtain ⟨t1, ht1⟩ := m.loadD_some a.transit (i : Int) (by omega) (by simpa using hw)
    obtain ⟨m1, hm1, hs1⟩ := m.storeD_some a.eq _
      (e1 + t1 * (((m.int a.transitionsiv1).getD i 0 : Int) : α)) hA.1 hA.2
    simp only [he1, ht1, hm1, Option.some_bind]
    by_cases hB : 0 ≤ (m.int a.transitionsiu2).getD i 0 - 1 ∧
        ((m.int a.transitionsiu2).getD i 0 - 1).toNat < (m.dbl a.eq).length
    · have hB1 : ((m.int a.transitionsiu2).getD i 0 - 1).toNat < (m1.dbl a.eq).length := by
        rw [hs1.2]; exact hB.2
      obtain ⟨e2, he2⟩ := m1.loadD_some a.eq _ hB.1 hB1
      obtain ⟨t2, ht2⟩ := m1.loadD_some a.transit (i : Int) (by omega)
        (by rw [hs1.2]; simpa using hw)
      obtain ⟨m2, hm2, hs2⟩ := m1.storeD_some a.eq _
        (e2 + t2 * (((m.int a.transitionsiv2).getD i 0 : Int) : α)) hB.1 hB1
      simp only [he2, ht2, hm2, Option.some_bind]
      refine ⟨fun _ => ⟨m2, rfl, hs2.1.trans hs1.1, fun q => (hs2.2 q).trans (hs1.2 q)⟩, ?_⟩
      intro hbad
      exact absurd (show idxOk a m n i from ⟨⟨hA.1, by omega⟩, hB.1, by omega⟩) hbad
    · have hnone : m1.loadD a.eq ((m.int a.transitionsiu2).getD i 0 - 1) = none := by
        apply m1.loadD_none
        rw [hs1.2]
        exact hB
      simp only [hnone, Option.none_bind]
      refine ⟨fun hok => ?_, fun _ => trivial⟩
      exact absurd (show _ ∧ _ from ⟨hok.2.1, by have := hok.2.1; have := hok.2.2; omega⟩) hB
  · have hnone : m.loadD a.eq ((m.int a.transitionsiu1).getD i 0 - 1) = none :=
      m.loadD_none a.eq _ hA
    simp only [hnone, Option.none_bind]
    refine ⟨fun hok => ?_, fun _ => trivial⟩
    exact absurd (show _ ∧ _ from ⟨hok.1.1, by have := hok.1.1; have := hok.1.2; omega⟩) hA

theorem SameShape.int_eq {m1 m : Mem α} (h : SameShape m1 m) (p : Nat) :
    m1.int p = m.int p := by
  unfold Mem.int
  rw [h.1]

theorem SameShape.idxOk_iff {m1 m : Mem α} (h : SameShape m1 m) (a : Args) (n j : Nat) :
    idxOk a m1 n j ↔ idxOk a m n j := by
  unfold idxOk
  rw [h.int_eq, h.int_eq]

theorem transLoop_none_iff [Add α] [Mul α] [IntCast α] (a : Args) (n l : Nat) :
    ∀ (k i : Nat) (m : Mem α), (m.dbl a.eq).length = n → (m.dbl a.transit).length = l →
    (m.int a.transitionsiu1).length = l → (m.int a.transitionsiu2).length = l →
    (m.int a.transitionsiv1).length = l → (m.int a.transitionsiv2).length = l →
    i + k = l →
    (transLoop a k i m = none ↔ ∃ j, i ≤ j ∧ j < l ∧ ¬ idxOk a m n j)
  | 0, i, m, _, _, _, _, _, _, hik => by
      simp only [transLoop]
      constructor
      · intro hc
        cases hc
      · rintro ⟨j, hj1, hj2, -⟩
        omega
  | k + 1, i, m, he, hw, h1, h2, h3, h4, hik => by
      obtain ⟨hok, hbad⟩ := transBody_cases a i n m he (by omega) (by omega) (by omega)
        (by omega) (by omega)
      by_cases hi : idxOk a m n i
      · obtain ⟨m1, hm1, hs⟩ := hok hi
        have ih := transLoop_none_iff a n l k (i + 1) m1 (by rw [hs.2]; exact he)
          (by rw [hs.2]; exact hw) (by rw [hs.int_eq]; exact h1) (by rw [hs.int_eq]; exact h2)
          (by rw [hs.int_eq]; exact h3) (by rw [hs.int_eq]; exact h4) (by omega)
        rw [transLoop, hm1, Option.some_bind, ih]
        constructor
        · rintro ⟨j, hj1, hj2, hj3⟩
          exact ⟨j, by omega, hj2, fun hc => hj3 ((hs.idxOk_iff a n j).mpr hc)⟩
        · rintro ⟨j, hj1, hj2, hj3⟩
          have hne : j ≠ i := fun e => hj3 (e ▸ hi)
          exact ⟨j, by omega, hj2, fun hc => hj3 ((hs.idxOk_iff a n j).mp hc)⟩
      · rw [transLoop, hbad hi]
        simp only [Option.none_bind, true_iff]
        exact ⟨i, le_refl i, by omega, hi⟩

/-- A shaped call fails exactly when some transition resolves a target outside `[0, n)`. -/
theorem EQ_none_iff [Add α] [Mul α] [IntCast α] (a : Args) (m : Mem α) (n l : Nat)
    (h : Shaped a m n l) : EQ a m = none ↔ ∃ i, i < l ∧ ¬ idxOk a m n i := by
  have hc := copyLoop_eq a n n 0 m h.oldeq_len h.eq_len (by omega)
  simp only [List.take_zero, List.drop_zero, List.nil_append] at hc
  have hs : SameShape (m.setDbl a.eq (m.dbl a.oldeq)) m :=
    m.setDbl_sameShape a.eq _ (by rw [h.oldeq_len, h.eq_len])
  have ht := transLoop_none_iff a n l l 0 (m.setDbl a.eq (m.dbl a.oldeq))
    (by rw [hs.2]; exact h.eq_len) (by rw [hs.2]; exact h.transit_len)
    (by rw [hs.int_eq]; exact h.iu1_len) (by rw [hs.int_eq]; exact h.iu2_len)
    (by rw [hs.int_eq]; exact h.iv1_len) (by rw [hs.int_eq]; exact h.iv2_len) (by omega)
  have hE : EQ a m = transLoop a l 0 (m.setDbl a.eq (m.dbl a.oldeq)) := by
    simp only [EQ, h.hN, Option.some_bind, Int.toNat_ofNat, hc, Mem.setDbl_loadI, h.hL]
  rw [hE, ht]
  constructor
  · rintro ⟨j, -, hj2, hj3⟩
    exact ⟨j, hj2, fun hc => hj3 ((hs.idxOk_iff a n j).mpr hc)⟩
  · rintro ⟨j, hj2, hj3⟩
    exact ⟨j, Nat.zero_le j, hj2, fun hc => hj3 ((hs.idxOk_iff a n j).mp hc)⟩

/-! ## The claims -/

/-- C1 (additivity, closed form).  In exact arithmetic (any commutative ring,
    so `ℚ` and `ℝ`), on an in-range input with `*N = n` and `*L = l`, the call
    returns and for every slot `k < n` the output minus the baseline is the sum
    of `weight * multiplierA` over the transitions with `targetA - 1 = k` plus
    the sum of `weight * multiplierB` over the transitions with `targetB - 1 = k`. -/
theorem EQ_additivity [CommRing α] (a : Args) (m : Mem α) (n l : Nat)
    (h : InRange a m n l) :
    ∃ r, EQ a m = some r ∧ ∀ k, k < n →
      (r.dbl a.eq).getD k 0 - (m.dbl a.oldeq).getD k 0 =
        contribA (tableOf a m) k + contribB (tableOf a m) k := by
  obtain ⟨r, hr, hout, -, -⟩ := EQ_out a m n l h
  refine ⟨r, hr, fun k hk => ?_⟩
  rw [hout, specApply_getD (tableOf a m) (m.dbl a.oldeq) k
    (by rw [h.shaped.oldeq_len]; exact hk) (by rw [h.shaped.oldeq_len]; exact h.idx)]
  ring

/-- Witness for C1: scenario 2, output `[5, -5, 0]`. -/
theorem EQ_additivity_witness :
    InRange exArgs exMem2 3 1 ∧
    (∃ r, EQ exArgs exMem2 = some r ∧ ∀ k, k < 3 →
      (r.dbl exArgs.eq).getD k 0 - (exMem2.dbl exArgs.oldeq).getD k 0 =
        contribA (tableOf exArgs exMem2) k + contribB (tableOf exArgs exMem2) k) ∧
    (EQ exArgs exMem2).map (fun r => r.dbl exArgs.eq) = some [5, -5, 0] :=
  ⟨exMem2_inRange, EQ_additivity exArgs exMem2 3 1 exMem2_inRange, by
    simp [EQ, exArgs, exMem2, Mem.loadI, Mem.int, copyLoop, copyBody, transLoop, transBody,
      Mem.loadD, Mem.storeD, Mem.dbl, Mem.setDbl]⟩

/-- C2 (table-order fold).  For every element type with `+`, `*` and the
    conversion from `int` (no algebraic law is used, so nothing depends on
    associativity), on an in-range input the call returns and its output array
    is the reference fold of the specification: a copy of the baseline to which
    the transitions are applied in table order, slot `targetA - 1` first, slot
    `targetB - 1` second. -/
theorem EQ_table_order_fold [Add α] [Mul α] [IntCast α] (a : Args) (m : Mem α) (n l : Nat)
    (h : InRange a m n l) :
    ∃ r, EQ a m = some r ∧ r.dbl a.eq = specApply (m.dbl a.oldeq) (tableOf a m) := by
  obtain ⟨r, hr, hout, -, -⟩ := EQ_out a m n l h
  exact ⟨r, hr, hout⟩

/-- Witness for C2: scenario 3, output `[5, 5]`. -/
theorem EQ_table_order_fold_witness :
    InRange exArgs exMem3 2 2 ∧
    (∃ r, EQ exArgs exMem3 = some r ∧
      r.dbl exArgs.eq = specApply (exMem3.dbl exArgs.oldeq) (tableOf exArgs exMem3)) ∧
    (EQ exArgs exMem3).map (fun r => r.dbl exArgs.eq) = some [5, 5] :=
  ⟨exMem3_inRange, EQ_table_order_fold exArgs exMem3 2 2 exMem3_inRange, by decide⟩

/-- C3 (identity on the empty table).  For every `n` and every baseline of
    length `n`, a call with `*L = 0` returns and its output array is the
    baseline, element for element, for every element type (no arithmetic law is
    used). -/
theorem EQ_empty_table [Add α] [Mul α] [IntCast α] (a : Args) (m : Mem α) (n : Nat)
    (h : Shaped a m n 0) :
    ∃ r, EQ a m = some r ∧ r.dbl a.eq = m.dbl a.oldeq := by
  have hc := copyLoop_eq a n n 0 m h.oldeq_len h.eq_len (by omega)
  simp only [List.take_zero, List.drop_zero, List.nil_append] at hc
  refine ⟨m.setDbl a.eq (m.dbl a.oldeq), ?_, ?_⟩
  · simp only [EQ, h.hN, Option.some_bind, Int.toNat_ofNat, hc, Mem.setDbl_loadI, h.hL]
    rfl
  · exact m.setDbl_dbl_same_of_length a.eq _ (by rw [h.oldeq_len, h.eq_len])

/-- Witness for C3: scenario 1, output `[1, 2, 3]`. -/
theorem EQ_empty_table_witness :
    Shaped exArgs exMem1 3 0 ∧
    (∃ r, EQ exArgs exMem1 = some r ∧ r.dbl exArgs.eq = exMem1.dbl exArgs.oldeq) ∧
    (EQ exArgs exMem1).map (fun r => r.dbl exArgs.eq) = some [1, 2, 3] :=
  ⟨exMem1_shaped, EQ_empty_table exArgs exMem1 3 exMem1_shaped, by
    simp [EQ, exArgs, exMem1, Mem.loadI, Mem.int, copyLoop, copyBody, transLoop,
      Mem.loadD, Mem.storeD, Mem.dbl, Mem.setDbl]⟩

/-- C4 (index safety, single failure class).  In the bounds-checked embedding,
    with `*N = n`, `*L = l`, baseline and output of length `n` and the five
    transition arrays of length `l`, for every element type and whatever the
    weights and multipliers are (and whichever arrays the pointers alias): if
    every transition has `1 ≤ targetA ≤ n` and `1 ≤ targetB ≤ n` the call returns
    a result; and the call fails exactly when some transition `i < l` has a
    resolved index `targetA[i]-1` or `targetB[i]-1` outside `[0, n)`. -/
theorem EQ_index_safety [Add α] [Mul α] [IntCast α] (a : Args) (m : Mem α) (n l : Nat)
    (h : Shaped a m n l) :
    ((∀ i, i < l →
        (1 ≤ (m.int a.transitionsiu1).getD i 0 ∧ (m.int a.transitionsiu1).getD i 0 ≤ n) ∧
        (1 ≤ (m.int a.transitionsiu2).getD i 0 ∧ (m.int a.transitionsiu2).getD i 0 ≤ n)) →
      ∃ r, EQ a m = some r) ∧
    (EQ a m = none ↔ ∃ i, i < l ∧
      (¬ (0 ≤ (m.int a.transitionsiu1).getD i 0 - 1 ∧
          (m.int a.transitionsiu1).getD i 0 - 1 < n) ∨
       ¬ (0 ≤ (m.int a.transitionsiu2).getD i 0 - 1 ∧
          (m.int a.transitionsiu2).getD i 0 - 1 < n))) := by
  have hiff := EQ_none_iff a m n l h
  constructor
  · intro hall
    cases hE : EQ a m with
    | some r => exact ⟨r, rfl⟩
    | none =>
      obtain ⟨i, hi, hbad⟩ := hiff.mp hE
      have := hall i hi
      exact absurd (show idxOk a m n i from ⟨⟨by omega, by omega⟩, by omega, by omega⟩) hbad
  · rw [hiff]
    constructor
    · rintro ⟨i, hi, hbad⟩
      refine ⟨i, hi, ?_⟩
      by_contra hc
      rw [not_or, not_not, not_not] at hc
      exact hbad hc
    · rintro ⟨i, hi, hbad⟩
      refine ⟨i, hi, fun hok => ?_⟩
      rcases hbad with hb | hb
      · exact hb hok.1
      · exact hb hok.2

/-- Witness for C4: an in-range call returns, a call with `targetB = 4 > N = 3` fails. -/
theorem EQ_index_safety_witness :
    Shaped exArgs exMemBad 3 1 ∧
    (((∀ i, i < 1 →
        (1 ≤ (exMemBad.int exArgs.transitionsiu1).getD i 0 ∧
          (exMemBad.int exArgs.transitionsiu1).getD i 0 ≤ (3 : Nat)) ∧
        (1 ≤ (exMemBad.int exArgs.transitionsiu2).getD i 0 ∧
          (exMemBad.int exArgs.transitionsiu2).getD i 0 ≤ (3 : Nat))) →
      ∃ r, EQ exArgs exMemBad = some r) ∧
    (EQ exArgs exMemBad = none ↔ ∃ i, i < 1 ∧
      (¬ (0 ≤ (exMemBad.int exArgs.transitionsiu1).getD i 0 - 1 ∧
          (exMemBad.int exArgs.transitionsiu1).getD i 0 - 1 < (3 : Nat)) ∨
       ¬ (0 ≤ (exMemBad.int exArgs.transitionsiu2).getD i 0 - 1 ∧
          (exMemBad.int exArgs.transitionsiu2).getD i 0 - 1 < (3 : Nat))))) ∧
    EQ exArgs exMemBad = none :=
  have hs : Shaped exArgs exMemBad 3 1 :=
    ⟨by decide, by decide, by decide, by decide, by decide, by decide, by decide, by decide,
      by decide⟩
  ⟨hs, EQ_index_safety exArgs exMemBad 3 1 hs, by decide⟩

/-- C5 (order independence).  In exact arithmetic (any commutative ring), two
    in-range calls on the same baseline whose transition tables are
    permutations of each other (the five parallel arrays permuted together)
    both return, and their output arrays are equal in every slot. -/
theorem EQ_order_independent [CommRing α] (a a' : Args) (m m' : Mem α) (n l : Nat)
    (h : InRange a m n l) (h' : InRange a' m' n l)
    (hb : m'.dbl a'.oldeq = m.dbl a.oldeq) (hp : (tableOf a' m').Perm (tableOf a m)) :
    ∃ r r', EQ a m = some r ∧ EQ a' m' = some r' ∧ r'.dbl a'.eq = r.dbl a.eq := by
  obtain ⟨r, hr, hout, -, -⟩ := EQ_out a m n l h
  obtain ⟨r', hr', hout', -, -⟩ := EQ_out a' m' n l h'
  exact ⟨r, r', hr, hr', by rw [hout, hout', hb, specApply_perm _ _ _ hp]⟩

/-- Witness for C5: a two-row table and the same table with the rows exchanged. -/
theorem EQ_order_independent_witness :
    InRange exArgs exMemPerm1 3 2 ∧ InRange exArgs exMemPerm2 3 2 ∧
    (tableOf exArgs exMemPerm2).Perm (tableOf exArgs exMemPerm1) ∧
    ∃ r r', EQ exArgs exMemPerm1 = some r ∧ EQ exArgs exMemPerm2 = some r' ∧
      r'.dbl exArgs.eq = r.dbl exArgs.eq :=
  have h1 : InRange exArgs exMemPerm1 3 2 :=
    ⟨⟨by decide, by decide, by decide, by decide, by decide, by decide, by decide, by decide,
      by decide⟩, by decide, by decide⟩
  have h2 : InRange exArgs exMemPerm2 3 2 :=
    ⟨⟨by decide, by decide, by decide, by decide, by decide, by decide, by decide, by decide,
      by decide⟩, by decide, by decide⟩
  have hp : (tableOf exArgs exMemPerm2).Perm (tableOf exArgs exMemPerm1) := List.Perm.swap _ _ _
  ⟨h1, h2, hp, EQ_order_independent exArgs exArgs exMemPerm1 exMemPerm2 3 2 h1 h2 rfl hp⟩

/-- C7 (inputs are read-only).  On an in-range input whose output array is
    not the baseline array, the call returns and afterwards the baseline vector,
    the weight array, the four integer transition arrays and the scalars `*N`
    and `*L` hold the values they held before: the whole `int` store is
    unchanged and the output array is the only `double` array that may differ. -/
theorem EQ_inputs_read_only [Add α] [Mul α] [IntCast α] (a : Args) (m : Mem α) (n l : Nat)
    (h : InRange a m n l) (hne : a.eq ≠ a.oldeq) :
    ∃ r, EQ a m = some r ∧
      r.dbl a.oldeq = m.dbl a.oldeq ∧ r.dbl a.transit = m.dbl a.transit ∧
      r.int a.transitionsiu1 = m.int a.transitionsiu1 ∧
      r.int a.transitionsiu2 = m.int a.transitionsiu2 ∧
      r.int a.transitionsiv1 = m.int a.transitionsiv1 ∧
      r.int a.transitionsiv2 = m.int a.transitionsiv2 ∧
      r.loadI a.N 0 = some (n : Int) ∧ r.loadI a.L 0 = some (l : Int) ∧
      r.ints = m.ints ∧ ∀ p, p ≠ a.eq → r.dbl p = m.dbl p := by
  obtain ⟨r, hr, -, hints, hframe⟩ := EQ_out a m n l h
  have hint : ∀ p, r.int p = m.int p := fun p => by unfold Mem.int; rw [hints]
  have hload : ∀ p i, r.loadI p i = m.loadI p i := fun p i => by
    unfold Mem.loadI; rw [hint]
  exact ⟨r, hr, hframe _ (Ne.symm hne), hframe _ (Ne.symm h.sep), hint _, hint _, hint _,
    hint _, by rw [hload]; exact h.shaped.hN, by rw [hload]; exact h.shaped.hL, hints, hframe⟩

/-- Witness for C7: scenario 2 with its separate output array. -/
theorem EQ_inputs_read_only_witness :
    InRange exArgs exMemMul1 3 1 ∧ exArgs.eq ≠ exArgs.oldeq ∧
    ∃ r, EQ exArgs exMemMul1 = some r ∧
      r.dbl exArgs.oldeq = exMemMul1.dbl exArgs.oldeq ∧
      r.dbl exArgs.transit = exMemMul1.dbl exArgs.transit ∧
      r.int exArgs.transitionsiu1 = exMemMul1.int exArgs.transitionsiu1 ∧
      r.int exArgs.transitionsiu2 = exMemMul1.int exArgs.transitionsiu2 ∧
      r.int exArgs.transitionsiv1 = exMemMul1.int exArgs.transitionsiv1 ∧
      r.int exArgs.transitionsiv2 = exMemMul1.int exArgs.transitionsiv2 ∧
      r.loadI exArgs.N 0 = some ((3 : Nat) : Int) ∧ r.loadI exArgs.L 0 = some ((1 : Nat) : Int) ∧
      r.ints = exMemMul1.ints ∧ ∀ p, p ≠ exArgs.eq → r.dbl p = exMemMul1.dbl p :=
  have h : InRange exArgs exMemMul1 3 1 :=
    ⟨⟨by decide, by decide, by decide, by decide, by decide, by decide, by decide, by decide,
      by decide⟩, by decide, by decide⟩
  ⟨h, by decide, EQ_inputs_read_only exArgs exMemMul1 3 1 h (by decide)⟩

/-- Remark on the storage convention of `InRange`: a call that passes the
    weight array as the output array overwrites the weights.  The copy loop
    stores the baseline `3` over the weight `5`, then the two accumulations read
    the overwritten weight: `3 + 3*1 = 6`, `6 + 6*1 = 12`. -/
theorem EQ_weights_as_output_example :
    EQ exArgsWeights exMemWeights =
      some { dbls := [[3], [12]], ints := [[1], [1], [1], [1], [1], [1]] } := by
  decide

/-- C8, as amended (only designated slots change).  For every element type, on
    an in-range input, a slot `k < n` that no transition `i < l` designates
    (`targetA[i]-1 ≠ k` and `targetB[i]-1 ≠ k`) holds exactly the baseline value
    after the call; designation reads the two target arrays only, so the same
    holds for every other in-range input `m'` with that baseline and those
    targets, whatever its multipliers and weights are. -/
theorem EQ_only_designated_slots [Add α] [Mul α] [IntCast α] (a : Args) (m m' : Mem α)
    (n l k : Nat) (h : InRange a m n l) (h' : InRange a m' n l)
    (hbase : m'.dbl a.oldeq = m.dbl a.oldeq)
    (hu1 : m'.int a.transitionsiu1 = m.int a.transitionsiu1)
    (hu2 : m'.int a.transitionsiu2 = m.int a.transitionsiu2)
    (hfree : ∀ i, i < l → (m.int a.transitionsiu1).getD i 0 - 1 ≠ (k : Int) ∧
      (m.int a.transitionsiu2).getD i 0 - 1 ≠ (k : Int)) :
    ∃ r r', EQ a m = some r ∧ EQ a m' = some r' ∧
      (r.dbl a.eq)[k]? = (m.dbl a.oldeq)[k]? ∧ (r'.dbl a.eq)[k]? = (m.dbl a.oldeq)[k]? := by
  obtain ⟨r, hr, hout, -, -⟩ := EQ_out a m n l h
  obtain ⟨r', hr', hout', -, -⟩ := EQ_out a m' n l h'
  refine ⟨r, r', hr, hr', ?_, ?_⟩
  · rw [hout]
    apply specApply_getElem?_of_free
    intro t ht
    obtain ⟨i, hi, e1, e2⟩ := mem_tableOf_targets a m t ht
    have hf := hfree i (by rw [← h.shaped.iu1_len]; exact hi)
    rw [e1, e2] at hf
    exact ⟨by rw [h.shaped.oldeq_len]; exact h.idx t ht, hf⟩
  · rw [hout', ← hbase]
    apply specApply_getElem?_of_free
    intro t ht
    obtain ⟨i, hi, e1, e2⟩ := mem_tableOf_targets a m' t ht
    have hf := hfree i (by rw [← h'.shaped.iu1_len]; exact hi)
    rw [← hu1, ← hu2, e1, e2] at hf
    exact ⟨by rw [h'.shaped.oldeq_len]; exact h'.idx t ht, hf⟩

/-- Witness for C8: slot 2 of scenario 2 is designated by no transition. -/
theorem EQ_only_designated_slots_witness :
    InRange exArgs exMemMul1 3 1 ∧ InRange exArgs exMemMul0 3 1 ∧
    ∃ r r', EQ exArgs exMemMul1 = some r ∧ EQ exArgs exMemMul0 = some r' ∧
      (r.dbl exArgs.eq)[2]? = (exMemMul1.dbl exArgs.oldeq)[2]? ∧
      (r'.dbl exArgs.eq)[2]? = (exMemMul1.dbl exArgs.oldeq)[2]? :=
  have h1 : InRange exArgs exMemMul1 3 1 :=
    ⟨⟨by decide, by decide, by decide, by decide, by decide, by decide, by decide, by decide,
      by decide⟩, by decide, by decide⟩
  have h0 : InRange exArgs exMemMul0 3 1 :=
    ⟨⟨by decide, by decide, by decide, by decide, by decide, by decide, by decide, by decide,
      by decide⟩, by decide, by decide⟩
  ⟨h1, h0, EQ_only_designated_slots exArgs exMemMul1 exMemMul0 3 1 2 h1 h0 rfl rfl rfl
    (by decide)⟩

/-- C8, the claim as stated fails: changing a multiplier changes which slots
    differ from the baseline.  With baseline `[0,0,0]` and the single transition
    `(targetA=1, targetB=2, weight=5, multiplierB=-1)`, `multiplierA = 1` gives
    `[5,-5,0]` (slot 0 differs) and `multiplierA = 0` gives `[0,-5,0]` (slot 0 does
    not differ). -/
theorem EQ_multipliers_change_differing_slots :
    (EQ exArgs exMemMul1).map (fun r => r.dbl exArgs.eq) = some [5, -5, 0] ∧
    (EQ exArgs exMemMul0).map (fun r => r.dbl exArgs.eq) = some [0, -5, 0] ∧
    ¬ ∀ (a : Args) (m m' : Mem ℤ) (n l : Nat) (r r' : Mem ℤ),
      InRange a m n l → InRange a m' n l → m'.dbls = m.dbls →
      m'.int a.transitionsiu1 = m.int a.transitionsiu1 →
      m'.int a.transitionsiu2 = m.int a.transitionsiu2 →
      EQ a m = some r → EQ a m' = some r' →
      ∀ k, k < n → ((r.dbl a.eq)[k]? ≠ (m.dbl a.oldeq)[k]? ↔
        (r'.dbl a.eq)[k]? ≠ (m'.dbl a.oldeq)[k]?) := by
  refine ⟨by decide, by decide, fun H => ?_⟩
  have h1 : InRange exArgs exMemMul1 3 1 :=
    ⟨⟨by decide, by decide, by decide, by decide, by decide, by decide, by decide, by decide,
      by decide⟩, by decide, by decide⟩
  have h0 : InRange exArgs exMemMul0 3 1 :=
    ⟨⟨by decide, by decide, by decide, by decide, by decide, by decide, by decide, by decide,
      by decide⟩, by decide, by decide⟩
  have e1 : EQ exArgs exMemMul1 =
      some { dbls := [[0, 0, 0], [5], [5, -5, 0]], ints := exMemMul1.ints } := by decide
  have e0 : EQ exArgs exMemMul0 =
      some { dbls := [[0, 0, 0], [5], [0, -5, 0]], ints := exMemMul0.ints } := by decide
  have := H exArgs exMemMul1 exMemMul0 3 1 _ _ h1 h0 rfl rfl rfl e1 e0 0 (by decide)
  revert this
  decide

/-- C9 (in-place use is equivalent to copy-out).  For every element type, when
    a call with output array `eq` and the same call with the output pointer
    aliased to the baseline (`eq := oldeq`) are both in range on the same
    memory, both return, and the in-place call leaves in the baseline array
    exactly the values the other call writes to its output array. -/
theorem EQ_in_place [Add α] [Mul α] [IntCast α] (a : Args) (m : Mem α) (n l : Nat)
    (h : InRange a m n l) (h' : InRange { a with eq := a.oldeq } m n l) :
    ∃ r r', EQ a m = some r ∧ EQ { a with eq := a.oldeq } m = some r' ∧
      r'.dbl a.oldeq = r.dbl a.eq := by
  obtain ⟨r, hr, hout, -, -⟩ := EQ_out a m n l h
  obtain ⟨r', hr', hout', -, -⟩ := EQ_out { a with eq := a.oldeq } m n l h'
  exact ⟨r, r', hr, hr', by rw [hout, hout']; rfl⟩

/-- Witness for C9: array 0 used in place and copied out to array 2 both end as
    `[15, 36, 30]`. -/
theorem EQ_in_place_witness :
    InRange exArgs exMemInPlace 3 2 ∧
    InRange { exArgs with eq := exArgs.oldeq } exMemInPlace 3 2 ∧
    (∃ r r', EQ exArgs exMemInPlace = some r ∧
      EQ { exArgs with eq := exArgs.oldeq } exMemInPlace = some r' ∧
      r'.dbl exArgs.oldeq = r.dbl exArgs.eq) ∧
    (EQ exArgs exMemInPlace).map (fun r => r.dbl exArgs.eq) = some [15, 36, 30] ∧
    (EQ { exArgs with eq := exArgs.oldeq } exMemInPlace).map (fun r => r.dbl exArgs.oldeq) =
      some [15, 36, 30] :=
  have h : InRange exArgs exMemInPlace 3 2 :=
    ⟨⟨by decide, by decide, by decide, by decide, by decide, by decide, by decide, by decide,
      by decide⟩, by decide, by decide⟩
  have h' : InRange { exArgs with eq := exArgs.oldeq } exMemInPlace 3 2 :=
    ⟨⟨by decide, by decide, by decide, by decide, by decide, by decide, by decide, by decide,
      by decide⟩, by decide, by decide⟩
  ⟨h, h', EQ_in_place exArgs exMemInPlace 3 2 h h', by decide, by decide⟩

/-- C10 (idempotent repetition).  For every element type, on an in-range input
    with an output array separate from the baseline, the call returns a result
    that does not depend on the prior contents of the output array (any other
    contents `x` of length `n` give the same final memory), and calling `EQ`
    again on the resulting memory returns that same memory. -/
theorem EQ_idempotent [Add α] [Mul α] [IntCast α] (a : Args) (m : Mem α) (n l : Nat)
    (h : InRange a m n l) (hne : a.eq ≠ a.oldeq) :
    ∃ r, EQ a m = some r ∧
      (∀ x : List α, x.length = n → EQ a (m.setDbl a.eq x) = some r) ∧
      EQ a r = some r := by
  have hE := EQ_eq a m n l h
  refine ⟨_, hE, fun x hx => ?_, ?_⟩
  · rw [EQ_setDbl_eq a m n l h hne x hx, hE]
  · rw [EQ_setDbl_eq a m n l h hne _
      (by rw [specApply_length, h.shaped.oldeq_len]), hE]

/-- Witness for C10: the stale output `[-1, -2, -3]` plays no role and a second
    call reproduces the first result. -/
theorem EQ_idempotent_witness :
    InRange exArgs exMemInPlace 3 2 ∧ exArgs.eq ≠ exArgs.oldeq ∧
    ∃ r, EQ exArgs exMemInPlace = some r ∧
      (∀ x : List ℤ, x.length = 3 → EQ exArgs (exMemInPlace.setDbl exArgs.eq x) = some r) ∧
      EQ exArgs r = some r :=
  have h : InRange exArgs exMemInPlace 3 2 :=
    ⟨⟨by decide, by decide, by decide, by decide, by decide, by decide, by decide, by decide,
      by decide⟩, by decide, by decide⟩
  ⟨h, by decide, EQ_idempotent exArgs exMemInPlace 3 2 h (by decide)⟩

/-! ## Shape, composition, balance and shift -/

theorem specApply_append [Add α] [Mul α] [IntCast α] (out : List α)
    (T1 T2 : List (Transition α)) :
    specApply out (T1 ++ T2) = specApply (specApply out T1) T2 := by
  simp only [specApply, List.foldl_append]

/-- C11 (shape preservation).  For every element type, on an in-range input
    with `*N = n` the call returns and its output array has length exactly `n`;
    moreover every `double` array keeps its length, so the accumulation pass
    neither grows nor shrinks any array. -/
theorem EQ_shape_preserved [Add α] [Mul α] [IntCast α] (a : Args) (m : Mem α) (n l : Nat)
    (h : InRange a m n l) :
    ∃ r, EQ a m = some r ∧ (r.dbl a.eq).length = n ∧
      ∀ q, (r.dbl q).length = (m.dbl q).length := by
  have hlen : (specApply (m.dbl a.oldeq) (tableOf a m)).length = (m.dbl a.eq).length := by
    rw [specApply_length, h.shaped.oldeq_len, h.shaped.eq_len]
  have hs := m.setDbl_sameShape a.eq _ hlen
  exact ⟨_, EQ_eq a m n l h, by rw [hs.2, h.shaped.eq_len], hs.2⟩

/-- Witness for C11: a call with `N = 3` and two transitions. -/
theorem EQ_shape_preserved_witness :
    InRange exArgs exMemInPlace 3 2 ∧
    ∃ r, EQ exArgs exMemInPlace = some r ∧ (r.dbl exArgs.eq).length = 3 ∧
      ∀ q, (r.dbl q).length = (exMemInPlace.dbl q).length :=
  have h : InRange exArgs exMemInPlace 3 2 :=
    ⟨⟨by decide, by decide, by decide, by decide, by decide, by decide, by decide, by decide,
      by decide⟩, by decide, by decide⟩
  ⟨h, EQ_shape_preserved exArgs exMemInPlace 3 2 h⟩

/-- C12 (composition over concatenation).  For every element type (no
    algebraic law is used), take an in-range call whose table is `T1 ++ T2`, an
    in-range call on the same baseline whose table is `T1`, and an in-range call
    whose table is `T2` and whose baseline is the output of the second call.
    All three return, and the output of the third call equals the output of
    the first, slot for slot. -/
theorem EQ_concat [Add α] [Mul α] [IntCast α] (a a1 a2 : Args) (m m1 m2 : Mem α)
    (n l1 l2 : Nat) (h : InRange a m n (l1 + l2)) (h1 : InRange a1 m1 n l1)
    (h2 : InRange a2 m2 n l2) (hT : tableOf a m = tableOf a1 m1 ++ tableOf a2 m2)
    (hb1 : m1.dbl a1.oldeq = m.dbl a.oldeq)
    (hb2 : (EQ a1 m1).map (fun r => r.dbl a1.eq) = some (m2.dbl a2.oldeq)) :
    ∃ r r1 r2, EQ a m = some r ∧ EQ a1 m1 = some r1 ∧ EQ a2 m2 = some r2 ∧
      m2.dbl a2.oldeq = r1.dbl a1.eq ∧ r2.dbl a2.eq = r.dbl a.eq := by
  obtain ⟨r, hr, hout, -, -⟩ := EQ_out a m n (l1 + l2) h
  obtain ⟨r1, hr1, hout1, -, -⟩ := EQ_out a1 m1 n l1 h1
  obtain ⟨r2, hr2, hout2, -, -⟩ := EQ_out a2 m2 n l2 h2
  rw [hr1] at hb2
  have hb : m2.dbl a2.oldeq = r1.dbl a1.eq := (Option.some.inj hb2).symm
  refine ⟨r, r1, r2, hr, hr1, hr2, hb, ?_⟩
  rw [hout2, hb, hout1, hb1, hout, hT, specApply_append]

/-- Witness for C12: the two-row table of `exMemInPlace`, its first row alone,
    then its second row on the intermediate result; both ways give `[15, 36, 30]`. -/
theorem EQ_concat_witness :
    InRange exArgs exMemInPlace 3 (1 + 1) ∧ InRange exArgs exMemFirst 3 1 ∧
    InRange exArgs exMemSecond 3 1 ∧
    (∃ r r1 r2, EQ exArgs exMemInPlace = some r ∧ EQ exArgs exMemFirst = some r1 ∧
      EQ exArgs exMemSecond = some r2 ∧
      exMemSecond.dbl exArgs.oldeq = r1.dbl exArgs.eq ∧
      r2.dbl exArgs.eq = r.dbl exArgs.eq) ∧
    (EQ exArgs exMemSecond).map (fun r => r.dbl exArgs.eq) = some [15, 36, 30] :=
  have h : InRange exArgs exMemInPlace 3 (1 + 1) :=
    ⟨⟨by decide, by decide, by decide, by decide, by decide, by decide, by decide, by decide,
      by decide⟩, by decide, by decide⟩
  have h1 : InRange exArgs exMemFirst 3 1 :=
    ⟨⟨by decide, by decide, by decide, by decide, by decide, by decide, by decide, by decide,
      by decide⟩, by decide, by decide⟩
  have h2 : InRange exArgs exMemSecond 3 1 :=
    ⟨⟨by decide, by decide, by decide, by decide, by decide, by decide, by decide, by decide,
      by decide⟩, by decide, by decide⟩
  ⟨h, h1, h2, EQ_concat exArgs exArgs exArgs exMemInPlace exMemFirst exMemSecond 3 1 1 h h1 h2
    (by decide) (by decide) (by decide), by decide⟩

theorem addAt_sum [CommRing α] : ∀ (out : List α) (k : Nat) (d : α), k < out.length →
    (addAt out k d).sum = out.sum + d
  | [], _, _, h => by simp at h
  | x :: xs, 0, d, _ => by
      simp only [addAt, List.sum_cons]
      ring
  | x :: xs, k + 1, d, h => by
      have ih := addAt_sum xs k d (by simpa using h)
      simp only [addAt, List.sum_cons, ih]
      ring

theorem specStep_sum [CommRing α] (out : List α) (t : Transition α)
    (ht : t.InRange out.length) :
    (specStep out t).sum =
      out.sum + t.weight * ((t.multiplierA + t.multiplierB : Int) : α) := by
  obtain ⟨⟨ha0, ha1⟩, hb0, hb1⟩ := ht
  unfold specStep
  rw [addAt_sum _ _ _ (by rw [addAt_length]; omega), addAt_sum _ _ _ (by omega)]
  push_cast
  ring

theorem specApply_sum [CommRing α] (T : List (Transition α)) : ∀ (out : List α),
    (∀ t ∈ T, t.InRange out.length) → (specApply out T).sum = out.sum + massAdded T := by
  induction T with
  | nil => intro out _; simp [specApply, massAdded]
  | cons t T ih =>
    intro out hr
    have h1 := ih (specStep out t)
      (by rw [specStep_length]; exact fun t ht => hr t (List.mem_cons_of_mem _ ht))
    have h2 := specStep_sum out t (hr t (List.mem_cons_self _ _))
    simp only [specApply, List.foldl_cons] at h1 ⊢
    rw [h1, h2]
    simp only [massAdded, List.map_cons, List.sum_cons]
    ring

theorem massAdded_eq_zero [CommRing α] (T : List (Transition α))
    (h : ∀ t ∈ T, t.multiplierB = -t.multiplierA) : (massAdded T : α) = 0 := by
  induction T with
  | nil => simp [massAdded]
  | cons t T ih =>
    have h1 := ih (fun t ht => h t (List.mem_cons_of_mem _ ht))
    have h2 := h t (List.mem_cons_self _ _)
    simp only [massAdded, List.map_cons, List.sum_cons] at h1 ⊢
    rw [h1, h2]
    simp

/-- C13 (total-mass balance).  In exact arithmetic (any commutative ring), on
    an in-range input the call returns and the sum of the output slots is the
    sum of the baseline slots plus the sum over the table of
    `weight * (multiplierA + multiplierB)`; in particular, when every transition
    has `multiplierB = -multiplierA`, the output and the baseline have the same
    sum. -/
theorem EQ_mass_balance [CommRing α] (a : Args) (m : Mem α) (n l : Nat)
    (h : InRange a m n l) :
    ∃ r, EQ a m = some r ∧
      (r.dbl a.eq).sum = (m.dbl a.oldeq).sum + massAdded (tableOf a m) ∧
      ((∀ t ∈ tableOf a m, t.multiplierB = -t.multiplierA) →
        (r.dbl a.eq).sum = (m.dbl a.oldeq).sum) := by
  obtain ⟨r, hr, hout, -, -⟩ := EQ_out a m n l h
  have hsum : (r.dbl a.eq).sum = (m.dbl a.oldeq).sum + massAdded (tableOf a m) := by
    rw [hout]
    exact specApply_sum _ _ (by rw [h.shaped.oldeq_len]; exact h.idx)
  refine ⟨r, hr, hsum, fun hneg => ?_⟩
  rw [hsum, massAdded_eq_zero _ hneg, add_zero]

/-- Witness for C13: `[10, 20, 30]` (sum 60) becomes `[15, 36, 30]` (sum 81), the
    table adding `5 * (1 + -1) + 7 * (2 + 1) = 21`. -/
theorem EQ_mass_balance_witness :
    InRange exArgs exMemInPlace 3 2 ∧
    (∃ r, EQ exArgs exMemInPlace = some r ∧
      (r.dbl exArgs.eq).sum =
        (exMemInPlace.dbl exArgs.oldeq).sum + massAdded (tableOf exArgs exMemInPlace) ∧
      ((∀ t ∈ tableOf exArgs exMemInPlace, t.multiplierB = -t.multiplierA) →
        (r.dbl exArgs.eq).sum = (exMemInPlace.dbl exArgs.oldeq).sum)) ∧
    (exMemInPlace.dbl exArgs.oldeq).sum = 60 ∧
    massAdded (tableOf exArgs exMemInPlace) = 21 ∧
    (EQ exArgs exMemInPlace).map (fun r => (r.dbl exArgs.eq).sum) = some 81 :=
  have h : InRange exArgs exMemInPlace 3 2 :=
    ⟨⟨by decide, by decide, by decide, by decide, by decide, by decide, by decide, by decide,
      by decide⟩, by decide, by decide⟩
  ⟨h, EQ_mass_balance exArgs exMemInPlace 3 2 h, by decide, by decide, by decide⟩

theorem addAt_vecAdd [CommRing α] : ∀ (out c : List α) (k : Nat) (d : α),
    addAt (vecAdd out c) k d = vecAdd (addAt out k d) c
  | [], _, _, _ => by simp [vecAdd, addAt]
  | _ :: _, [], k, _ => by cases k <;> simp [vecAdd, addAt]
  | _ :: _, _ :: _, 0, _ => by simp [vecAdd, addAt, add_right_comm]
  | x :: xs, y :: ys, k + 1, d => by
      have ih := addAt_vecAdd xs ys k d
      simp only [vecAdd] at ih
      simp [vecAdd, addAt, ih]

theorem specStep_vecAdd [CommRing α] (out c : List α) (t : Transition α) :
    specStep (vecAdd out c) t = vecAdd (specStep out t) c := by
  unfold specStep
  rw [addAt_vecAdd, addAt_vecAdd]

theorem specApply_vecAdd [CommRing α] (T : List (Transition α)) : ∀ (out c : List α),
    specApply (vecAdd out c) T = vecAdd (specApply out T) c := by
  induction T with
  | nil => intro out c; rfl
  | cons t T ih =>
    intro out c
    have h1 := ih (specStep out t) c
    simp only [specApply, List.foldl_cons] at h1 ⊢
    rw [specStep_vecAdd, h1]

theorem vecSub_vecAdd [CommRing α] : ∀ (o b c : List α), o.length = c.length →
    b.length = c.length → vecSub (vecAdd o c) (vecAdd b c) = vecSub o b
  | [], _, _, _, _ => by simp [vecSub, vecAdd]
  | _ :: _, [], _, _, _ => by simp [vecSub, vecAdd]
  | _ :: _, _ :: _, [], ho, _ => by simp at ho
  | x :: xs, y :: ys, z :: zs, ho, hb => by
      have ih := vecSub_vecAdd xs ys zs (by simpa using ho) (by simpa using hb)
      simp only [vecSub, vecAdd] at ih
      simp [vecSub, vecAdd, ih]

/-- C14 (baseline shift).  In exact arithmetic (any commutative ring), for two
    in-range calls on the same transition table, one on a baseline `b` and one
    on the baseline `b + c` (vectors of length `n`), both return, the output of
    the second is the output of the first plus `c` slot for slot, and the
    increment `output - baseline` is the same vector for both calls. -/
theorem EQ_baseline_shift [CommRing α] (a a' : Args) (m m' : Mem α) (n l : Nat)
    (c : List α) (h : InRange a m n l) (h' : InRange a' m' n l)
    (hT : tableOf a' m' = tableOf a m) (hc : c.length = n)
    (hb : m'.dbl a'.oldeq = vecAdd (m.dbl a.oldeq) c) :
    ∃ r r', EQ a m = some r ∧ EQ a' m' = some r' ∧
      r'.dbl a'.eq = vecAdd (r.dbl a.eq) c ∧
      vecSub (r'.dbl a'.eq) (m'.dbl a'.oldeq) = vecSub (r.dbl a.eq) (m.dbl a.oldeq) := by
  obtain ⟨r, hr, hout, -, -⟩ := EQ_out a m n l h
  obtain ⟨r', hr', hout', -, -⟩ := EQ_out a' m' n l h'
  have hshift : r'.dbl a'.eq = vecAdd (r.dbl a.eq) c := by
    rw [hout', hb, hT, specApply_vecAdd, hout]
  refine ⟨r, r', hr, hr', hshift, ?_⟩
  rw [hshift, hb]
  apply vecSub_vecAdd
  · rw [hout, specApply_length, h.shaped.oldeq_len, hc]
  · rw [h.shaped.oldeq_len, hc]

/-- Witness for C14: baselines `[10, 20, 30]` and `[11, 22, 33]` on the same
    table; the outputs are `[15, 36, 30]` and `[16, 38, 33]`, the increment is
    `[5, 16, 0]` in both calls. -/
theorem EQ_baseline_shift_witness :
    InRange exArgs exMemInPlace 3 2 ∧ InRange exArgs exMemShift 3 2 ∧
    (∃ r r', EQ exArgs exMemInPlace = some r ∧ EQ exArgs exMemShift = some r' ∧
      r'.dbl exArgs.eq = vecAdd (r.dbl exArgs.eq) [1, 2, 3] ∧
      vecSub (r'.dbl exArgs.eq) (exMemShift.dbl exArgs.oldeq) =
        vecSub (r.dbl exArgs.eq) (exMemInPlace.dbl exArgs.oldeq)) ∧
    (EQ exArgs exMemShift).map (fun r => r.dbl exArgs.eq) = some [16, 38, 33] ∧
    (EQ exArgs exMemShift).map
      (fun r => vecSub (r.dbl exArgs.eq) (exMemShift.dbl exArgs.oldeq)) = some [5, 16, 0] :=
  have h : InRange exArgs exMemInPlace 3 2 :=
    ⟨⟨by decide, by decide, by decide, by decide, by decide, by decide, by decide, by decide,
      by decide⟩, by decide, by decide⟩
  have h' : InRange exArgs exMemShift 3 2 :=
    ⟨⟨by decide, by decide, by decide, by decide, by decide, by decide, by decide, by decide,
      by decide⟩, by decide, by decide⟩
  ⟨h, h', EQ_baseline_shift exArgs exArgs exMemInPlace exMemShift 3 2 [1, 2, 3] h h'
    (by decide) (by decide) (by decide), by decide, by decide⟩

end METCAP
